import Mathlib

/-!
Verification of the change-tracking core of
prosemirror-change-tracking-prototype (src/index.js).

The document/tree model is an external collaborator consumed through an
interface (positions into a linear content stream, `slice`, `replace`,
`findDiffStart`, `findDiffEnd`, and step position maps).  We instantiate
that interface with flat token lists: a document is a `List α`, a slice is
a `List α`, and the container resolved by `minimizeChange` is the whole
document (the single-depth instance of the tree interface).  The repo's
algorithms — `TrackedChange.map`, `applyAndSlice`, `minimizeChange`,
`mapChanges`, `ChangeTracking.recordRange` and `record` — are translated
clause by clause from the source over this instance.  Authors are opaque
tokens compared only by equality (modelled as `Nat`).
-/

/-- A tracked change: the span `[from', to')` of the current document,
the structural content that stood there before the tracked edits
(`deleted`), and the author.  Mirrors class `TrackedChange` in
src/index.js (fields `from`, `to`, `deleted`, `author`; `from` is a Lean
keyword, hence the primes). -/
structure TrackedChange (α : Type) where
  from' : Nat
  to' : Nat
  deleted : List α
  author : Nat
deriving DecidableEq, Repr

/-- The operation `doc.slice(from, to)` of the flat document instance. -/
def sliceDoc (d : List α) (f t : Nat) : List α :=
  (d.drop f).take (t - f)

/-- The operation `new Transform(doc).replace(from, to, slice)` of the flat instance:
the content of the resulting document. -/
def replace (d : List α) (f t : Nat) (s : List α) : List α :=
  d.take f ++ s ++ d.drop t

/-- One step position map: the list of replaced ranges
`(oldStart, oldSize, newSize)`, exactly the triples stored in
prosemirror-transform's `StepMap.ranges` that `record` iterates over. -/
def StepRanges := List (Nat × Nat × Nat)

/-- The body of `StepMap.map(pos, assoc)` from prosemirror-transform
(non-inverted map): walk the ranges accumulating the size difference
`diff`; a position at the start (resp. end) of a nonempty replaced range
is biased to the left (resp. right) regardless of `assoc`, a position
strictly inside, or touching an empty range, follows `assoc`. -/
def mapPosI : List (Nat × Nat × Nat) → Int → Nat → Int → Int
  | [], diff, pos, _ => (pos : Int) + diff
  | (start, oldSize, newSize) :: rest, diff, pos, assoc =>
    if start > pos then (pos : Int) + diff
    else if pos ≤ start + oldSize then
      let side : Int :=
        if oldSize = 0 then assoc
        else if pos = start then -1
        else if pos = start + oldSize then 1
        else assoc
      (start : Int) + diff + (if side < 0 then 0 else (newSize : Int))
    else mapPosI rest (diff + (newSize : Int) - (oldSize : Int)) pos assoc

/-- The mapped position `map.map(pos, assoc)`, as a natural number. -/
def mapNat (m : List (Nat × Nat × Nat)) (pos : Nat) (assoc : Int) : Nat :=
  (mapPosI m 0 pos assoc).toNat

/-- The bias a change's `from` endpoint is mapped with:
`mapping.map(this.from, inclusive ? -1 : 1)`. -/
def fromBias (inclusive : Bool) : Int := if inclusive then -1 else 1

/-- The bias a change's `to` endpoint is mapped with:
`mapping.map(this.to, inclusive ? 1 : -1)`. -/
def toBias (inclusive : Bool) : Int := if inclusive then 1 else -1

/-- The method `TrackedChange.map(mapping, inclusive)` from src/index.js lines
12-17: map `from` with bias `-1` and `to` with bias `1` when inclusive
(the change's own author is editing), the opposite biases otherwise;
return `null` when the mapped range collapses (`from > to`, or
`from == to` with empty deleted content). -/
def TrackedChange.map [DecidableEq α] (c : TrackedChange α)
    (m : List (Nat × Nat × Nat)) (inclusive : Bool) :
    Option (TrackedChange α) :=
  let f := mapNat m c.from' (fromBias inclusive)
  let t := mapNat m c.to' (toBias inclusive)
  if f > t ∨ (f = t ∧ c.deleted = []) then none
  else some ⟨f, t, c.deleted, c.author⟩

/-- The function `applyAndSlice(doc, changes, from, to)` from src/index.js lines
24-31: re-apply every change's deletion onto `doc`, from the last change
to the first, then slice `[from, map(to))` out of the resulting document.
The fold threads the current document together with the image of `to`
under the accumulated mapping (each replace contributes the step map of
its own range, applied with the default bias `1`). -/
def applyAndSlice (doc : List α) (chs : List (TrackedChange α)) (f t : Nat) :
    List α :=
  let p := chs.reverse.foldl
    (fun (acc : List α × Nat) c =>
      (replace acc.1 c.from' c.to' c.deleted,
       mapNat [(c.from', c.to' - c.from', c.deleted.length)] acc.2 1))
    (doc, t)
  sliceDoc p.1 f p.2

/-- The function `Fragment.findDiffStart` of the flat instance: position of the first
divergence between two child sequences scanned from `pos`; `none` when
they are equal, the exhaustion point when one is a proper prefix of the
other. -/
def findDiffStart [DecidableEq α] : List α → List α → Nat → Option Nat
  | [], [], _ => none
  | [], _ :: _, pos => some pos
  | _ :: _, [], pos => some pos
  | a :: as, b :: bs, pos =>
    if a = b then findDiffStart as bs (pos + 1) else some pos

/-- Helper for `findDiffEnd`: scan two reversed sequences, decrementing
the two end positions past every matching pair. -/
def findDiffEndRev [DecidableEq α] :
    List α → List α → Nat → Nat → Option (Nat × Nat)
  | [], [], _, _ => none
  | [], _ :: _, pA, pB => some (pA, pB)
  | _ :: _, [], pA, pB => some (pA, pB)
  | a :: as, b :: bs, pA, pB =>
    if a = b then findDiffEndRev as bs (pA - 1) (pB - 1) else some (pA, pB)

/-- The function `Fragment.findDiffEnd` of the flat instance: last point of
divergence, scanned from the two ends `pA` (in the first document) and
`pB` (in the second). -/
def findDiffEnd [DecidableEq α] (a b : List α) (pA pB : Nat) :
    Option (Nat × Nat) :=
  findDiffEndRev a.reverse b.reverse pA pB

/-- The function `minimizeChange(change, doc, side)` from src/index.js lines 33-54,
on the flat document instance (the resolved shared container is the
whole document, the single-depth case of the tree interface).
`changedDoc` reconstructs the pre-change document; for `side == -1` the
source tests the divergence position with `if (!diffStart) return null`,
so a divergence at position `0` is treated like no divergence at all. -/
def minimizeChange [DecidableEq α] (c : TrackedChange α) (doc : List α)
    (side : Int) : Option (TrackedChange α) :=
  let changedDoc := replace doc c.from' c.to' c.deleted
  let stepM : List (Nat × Nat × Nat) :=
    [(c.from', c.to' - c.from', c.deleted.length)]
  if side = -1 then
    match findDiffStart doc changedDoc 0 with
    | none => none
    | some ds =>
      if ds = 0 then none
      else if ds = c.from' ∨ ds ≥ c.to' then some c
      else some ⟨ds, c.to', sliceDoc changedDoc ds (mapNat stepM c.to' 1),
                 c.author⟩
  else
    match findDiffEnd doc changedDoc doc.length changedDoc.length with
    | none => none
    | some (da, db) =>
      if da = c.to' ∨ da ≤ c.from' ∨ db ≤ c.from' then some c
      else some ⟨c.from', da, sliceDoc changedDoc c.from' db, c.author⟩

/-- Lookup of the trim side recorded for a freshly updated change:
`updated.indexOf(change) > -1` followed by `updated[idx + 1]` in
src/index.js lines 61-62 (the source array alternates changes and
sides; under the non-overlap invariant structural equality coincides
with the reference identity the source compares by). -/
def lookupSide [DecidableEq α] (updated : List (TrackedChange α × Int))
    (c : TrackedChange α) : Option Int :=
  match updated with
  | [] => none
  | (u, s) :: rest => if u = c then some s else lookupSide rest c

/-- The function `mapChanges(changes, map, author, updated, docAfter)` from
src/index.js lines 56-67: map every change (inclusively exactly when its
author is the editing author), drop collapsed ones, and pass freshly
updated ones through `minimizeChange` with their recorded side. -/
def mapChanges [DecidableEq α] (changes : List (TrackedChange α))
    (m : List (Nat × Nat × Nat)) (author : Option Nat)
    (updated : List (TrackedChange α × Int)) (docAfter : List α) :
    List (TrackedChange α) :=
  match changes with
  | [] => []
  | c :: rest =>
    let tail := mapChanges rest m author updated docAfter
    match c.map m (author == some c.author) with
    | none => tail
    | some mapped =>
      match lookupSide updated c with
      | none => mapped :: tail
      | some side =>
        match minimizeChange mapped docAfter side with
        | none => tail
        | some mm => mm :: tail

/-- The inner `for j` loop of `recordRange` (src/index.js lines 97-105):
walk the changes after the first match, keeping other authors' changes
in place, absorbing same-author changes until one starts strictly after
`to`.  Returns the absorbed changes and the remaining list. -/
def absorb (a : Nat) (t : Nat) : List (TrackedChange α) →
    List (TrackedChange α) × List (TrackedChange α)
  | [] => ([], [])
  | c :: rest =>
    if c.author ≠ a then
      let p := absorb a t rest
      (p.1, c :: p.2)
    else if c.from' > t then ([], c :: rest)
    else
      let p := absorb a t rest
      (c :: p.1, p.2)

/-- The method `ChangeTracking.recordRange(doc, from, to, author, updatedChanges)`
from src/index.js lines 88-114, with the mutation of `this.changes` and
the push into `updatedChanges` made explicit: returns the new change
list together with the merged change and its trim side when the merge
branch ran.  The scan skips changes of other authors and same-author
changes ending before `from`; it gives up and inserts a fresh change as
soon as a same-author change starts strictly after `to`. -/
def recordRange [DecidableEq α] (a : Nat) (doc : List α) (f t : Nat) :
    List (TrackedChange α) →
    List (TrackedChange α) × Option (TrackedChange α × Int)
  | [] => ([⟨f, t, sliceDoc doc f t, a⟩], none)
  | c :: rest =>
    if c.author ≠ a ∨ c.to' < f then
      let p := recordRange a doc f t rest
      (c :: p.1, p.2)
    else if c.from' > t then
      (⟨f, t, sliceDoc doc f t, a⟩ :: c :: rest, none)
    else
      let p := absorb a t rest
      let newContent : Bool :=
        decide (f < c.from') || decide (t > c.to') || decide (p.1 ≠ [])
      let newFrom := min c.from' f
      let newTo := max (p.1.getLastD c).to' t
      let sl := if newContent then applyAndSlice doc (c :: p.1) newFrom newTo
                else c.deleted
      let merged : TrackedChange α := ⟨newFrom, newTo, sl, c.author⟩
      (merged :: p.2, some (merged, if f ≤ c.from' then -1 else 1))

/-- One atomic replace step: the span `[pos, pos + oldLen)` of the
current document is replaced by `repl` (a single-range `ReplaceStep`,
whose `StepMap` holds the one triple `(pos, oldLen, repl.length)`). -/
structure EditStep (α : Type) where
  pos : Nat
  oldLen : Nat
  repl : List α
deriving DecidableEq, Repr

/-- The step map of an `EditStep`. -/
def stepMapOf (s : EditStep α) : List (Nat × Nat × Nat) :=
  [(s.pos, s.oldLen, s.repl.length)]

/-- One iteration of `ChangeTracking.record` (src/index.js lines
77-86) for a single-range step: `recordRange` on the step's replaced
range against the pre-step document, then `mapChanges` through the
step's map with the freshly updated change, against the post-step
document. -/
def recordStep [DecidableEq α] (a : Nat)
    (st : List (TrackedChange α) × List α) (s : EditStep α) :
    List (TrackedChange α) × List α :=
  let p := recordRange a st.2 s.pos (s.pos + s.oldLen) st.1
  let docAfter := replace st.2 s.pos (s.pos + s.oldLen) s.repl
  (mapChanges p.1 (stepMapOf s) (some a) p.2.toList docAfter, docAfter)

/-- The method `ChangeTracking.record(transform, author)` over a transform given as
a list of single-range steps, threading the change set and the document. -/
def record [DecidableEq α] (a : Nat) (steps : List (EditStep α))
    (st : List (TrackedChange α) × List α) :
    List (TrackedChange α) × List α :=
  steps.foldl (recordStep a) st

/-- The non-overlap-per-author property of spec §3: no two changes with
the same author have overlapping or touching ranges. -/
abbrev sameAuthorSeparated (l : List (TrackedChange α)) : Prop :=
  l.Pairwise (fun c1 c2 =>
    c1.author = c2.author → c1.to' < c2.from' ∨ c2.to' < c1.from')

/-- The ordering invariant of spec §3: the change set is sorted by
`from`. -/
abbrev sortedByFrom (l : List (TrackedChange α)) : Prop :=
  l.Pairwise (fun c1 c2 => c1.from' ≤ c2.from')

/-- The absorption condition of the inner loop of `recordRange`: a
change is pulled into the merge run when it belongs to the editing
author and starts no later than `to`. -/
def absorbedBy [DecidableEq α] (a t : Nat) (x : TrackedChange α) : Bool :=
  x.author == a && decide (x.from' ≤ t)

/-- The merge run described by spec §4.1: the first matching change
followed by every later same-author change starting no later than `to`. -/
def mergeRun [DecidableEq α] (a t : Nat) (c : TrackedChange α)
    (rest : List (TrackedChange α)) : List (TrackedChange α) :=
  c :: rest.filter (absorbedBy a t)

/-- The merged change described by spec §4.1 step 3, written from the
claim's words: its start is the minimum of the absorbed changes' starts
and `from`, its end the maximum of the absorbed changes' ends and `to`,
and its deleted content is recomputed by `applyAndSlice` exactly when
the edited span extends beyond the first absorbed change or more than
one change is absorbed. -/
def mergedOf [DecidableEq α] (a : Nat) (d : List α) (f t : Nat)
    (c : TrackedChange α) (rest : List (TrackedChange α)) :
    TrackedChange α :=
  let run := mergeRun a t c rest
  let newFrom := (run.map TrackedChange.from').foldl min f
  let newTo := (run.map TrackedChange.to').foldl max t
  ⟨newFrom, newTo,
   if f < c.from' ∨ t > c.to' ∨ run.length > 1
   then applyAndSlice d run newFrom newTo else c.deleted, a⟩

/-- Per-author strict separation: for every author, that author's
changes, in list order, have ranges that neither overlap nor touch. -/
def perAuthorSep [DecidableEq α] (l : List (TrackedChange α)) : Prop :=
  ∀ b : Nat, (l.filter (fun x => x.author == b)).Pairwise
    (fun x y => x.to' < y.from')

/-- One `recordRange` operation: author, pre-edit document, and the
edited span. -/
structure RecOp (α : Type) where
  author : Nat
  doc : List α
  rfrom : Nat
  rto : Nat

/-- The change set reached from the empty set by a sequence of
`recordRange` operations. -/
def recordRangeSeq [DecidableEq α] (ops : List (RecOp α)) :
    List (TrackedChange α) :=
  ops.foldl (fun l op => (recordRange op.author op.doc op.rfrom op.rto l).1) []

/-- C1, counterexample.  Record two insertions by the same author at
non-touching spans of the document `[1,2,3]` (insert `9` at 1, then `8`
at 3).  The final change set holds the change `⟨1,2,[]⟩`, whose span was
last modified by the first step (the second step never touches `[1,2)`),
so the document immediately before that modification is `[1,2,3]`.
Substituting the change's deleted content back at `[1,2)` of the current
document yields `[1,2,8,3]`, which differs both from `[1,2,3]` and from
the intermediate document `[1,9,2,3]`: the snapshot does not reconstruct
the historical document once an unrelated tracked edit happened
elsewhere. -/
theorem C1_counterexample :
    record 0 [⟨1, 0, [9]⟩, ⟨3, 0, [8]⟩]
        (([] : List (TrackedChange Nat)), [1, 2, 3])
      = ([⟨1, 2, [], 0⟩, ⟨3, 4, [], 0⟩], [1, 9, 2, 8, 3]) ∧
    replace [1, 9, 2, 8, 3] 1 2 ([] : List Nat) ≠ [1, 2, 3] ∧
    replace [1, 9, 2, 8, 3] 1 2 ([] : List Nat) ≠ [1, 9, 2, 3] := by
  decide

/-- C2, counterexample.  From the empty set, two `recordRange` calls by
author 0 create the disjoint changes `(1,2)` and `(3,4)`; a `mapChanges`
through the position map replacing `[1,4)` by two tokens then maps both
to `(1,3)`: two changes of the same author fully overlap, violating the
non-overlap invariant in a state reachable by a sequence of
`recordRange` and `mapChanges` operations. -/
theorem C2_counterexample :
    mapChanges
        (recordRange 0 [0, 1, 2, 3, 4] 3 4
          (recordRange 0 [0, 1, 2, 3, 4] 1 2
            ([] : List (TrackedChange Nat))).1).1
        [(1, 3, 2)] (some 0) [] [0, 4]
      = [⟨1, 3, [1], 0⟩, ⟨1, 3, [3], 0⟩] ∧
    ¬ sameAuthorSeparated
        [(⟨1, 3, [1], 0⟩ : TrackedChange Nat), ⟨1, 3, [3], 0⟩] := by
  decide

/-- C5, counterexample.  For the change `⟨1,2,[1,2]⟩` on the post-edit
document `[1,1,2]`, the reconstructed pre-edit document is `[1,1,2,2]`
and the first divergence sits at position 3, at or after the change's
end 2 — yet `minimizeChange` returns the change unchanged instead of
dropping it as the claim states. -/
theorem C5_counterexample :
    findDiffStart [1, 1, 2] (replace [1, 1, 2] 1 2 [1, 2]) 0 = some 3 ∧
    (2 : Nat) ≤ 3 ∧
    minimizeChange (⟨1, 2, [1, 2], 0⟩ : TrackedChange Nat) [1, 1, 2] (-1)
      = some ⟨1, 2, [1, 2], 0⟩ := by
  decide

/-- C7, counterexample.  Recording a span for author 1 and then a span
further left for author 0 leaves the set unsorted: the scan of
`recordRange` only breaks at same-author changes, so the new change is
appended after the foreign-author change that lies to its right. -/
theorem C7_counterexample :
    (recordRange 0 [0, 1, 2, 3, 4, 5, 6] 1 2
        (recordRange 1 [0, 1, 2, 3, 4, 5, 6] 5 6
          ([] : List (TrackedChange Nat))).1).1
      = [⟨5, 6, [5], 1⟩, ⟨1, 2, [1], 0⟩] ∧
    ¬ sortedByFrom [(⟨5, 6, [5], 1⟩ : TrackedChange Nat), ⟨1, 2, [1], 0⟩] := by
  decide

/-- C10: in `minimizeChange` with `side == -1` (start side), a computed
divergence position of `0` is treated exactly like finding no
divergence: the JS test `if (!diffStart) return null` is falsy at `0`,
so the change is dropped even though a genuine divergence exists at the
very start of the container. -/
theorem C10_diffStart_zero_dropped [DecidableEq α] (c : TrackedChange α)
    (doc : List α)
    (h : findDiffStart doc (replace doc c.from' c.to' c.deleted) 0 = some 0) :
    minimizeChange c doc (-1) = none := by
  simp [minimizeChange, h]

/-- C10, witness: the change `⟨0,1,[7]⟩` on document `[5,6]` diverges
from its reconstruction `[7,6]` at position 0 and is dropped. -/
theorem C10_witness :
    findDiffStart [5, 6] (replace [5, 6] 0 1 [7]) 0 = some 0 ∧
    minimizeChange (⟨0, 1, [7], 0⟩ : TrackedChange Nat) [5, 6] (-1) = none :=
  ⟨by decide, C10_diffStart_zero_dropped ⟨0, 1, [7], 0⟩ [5, 6] (by decide)⟩

/-- With no freshly updated changes, `mapChanges` is exactly map-and-drop
over the list. -/
theorem mapChanges_no_updated [DecidableEq α] (l : List (TrackedChange α))
    (m : List (Nat × Nat × Nat)) (author : Option Nat) (d : List α) :
    mapChanges l m author [] d =
      l.filterMap (fun x => x.map m (author == some x.author)) := by
  induction l with
  | nil => rfl
  | cons c rest ih =>
    simp only [mapChanges, lookupSide, List.filterMap_cons, ih]
    cases c.map m (author == some c.author) <;> simp

/-- C4: `TrackedChange.map` drops a change exactly when the mapped
endpoints satisfy `from > to`, or `from == to` while the deleted content
is empty; otherwise the mapped change keeps its deleted content and
author; and `mapChanges` without freshly updated changes keeps or
excludes each change accordingly. -/
theorem C4_map_drop_characterization [DecidableEq α]
    (m : List (Nat × Nat × Nat)) (incl : Bool) (c : TrackedChange α) :
    (c.map m incl = none ↔
      mapNat m c.from' (fromBias incl) >
          mapNat m c.to' (toBias incl) ∨
        (mapNat m c.from' (fromBias incl) =
            mapNat m c.to' (toBias incl) ∧ c.deleted = [])) ∧
    (¬ (mapNat m c.from' (fromBias incl) >
          mapNat m c.to' (toBias incl) ∨
        (mapNat m c.from' (fromBias incl) =
            mapNat m c.to' (toBias incl) ∧ c.deleted = [])) →
      c.map m incl = some ⟨mapNat m c.from' (fromBias incl),
        mapNat m c.to' (toBias incl), c.deleted, c.author⟩) ∧
    (∀ (l : List (TrackedChange α)) (author : Option Nat) (d : List α),
      mapChanges l m author [] d =
        l.filterMap (fun x => x.map m (author == some x.author))) := by
  refine ⟨?_, ?_, fun l author d => mapChanges_no_updated l m author d⟩
  · simp only [TrackedChange.map]
    split
    next hcond => exact iff_of_true rfl hcond
    next hcond => exact iff_of_false (by simp) hcond
  · intro h
    simp only [TrackedChange.map]
    split
    next hcond => exact absurd hcond h
    next hcond => rfl

/-- C4, witness: through the map replacing `[0,1)` by two tokens, the
change `⟨0,3,[9]⟩` maps inclusively to `⟨0,4,[9]⟩` and is kept. -/
theorem C4_witness :
    (¬ (mapNat [(0, 1, 2)] 0 (-1) > mapNat [(0, 1, 2)] 3 1 ∨
        (mapNat [(0, 1, 2)] 0 (-1) = mapNat [(0, 1, 2)] 3 1 ∧
          ([9] : List Nat) = []))) ∧
    TrackedChange.map (⟨0, 3, [9], 5⟩ : TrackedChange Nat) [(0, 1, 2)] true
      = some ⟨mapNat [(0, 1, 2)] 0 (-1), mapNat [(0, 1, 2)] 3 1, [9], 5⟩ ∧
    mapChanges [(⟨0, 3, [9], 5⟩ : TrackedChange Nat)] [(0, 1, 2)] (some 5)
        [] [7]
      = [(⟨0, 3, [9], 5⟩ : TrackedChange Nat)].filterMap
          (fun x => x.map [(0, 1, 2)] ((some 5 : Option Nat) == some x.author)) :=
  ⟨by decide,
   (C4_map_drop_characterization [(0, 1, 2)] true ⟨0, 3, [9], 5⟩).2.1
     (by decide),
   (C4_map_drop_characterization [(0, 1, 2)] true ⟨0, 3, [9], 5⟩).2.2
     [⟨0, 3, [9], 5⟩] (some 5) [7]⟩

/-- The inner absorb loop never absorbs another author's change: its
absorbed run is computed entirely from the editing author's changes. -/
theorem absorb_fst_filter [DecidableEq α] (a : Nat) (t : Nat)
    (l : List (TrackedChange α)) :
    (absorb a t (l.filter (fun c => c.author == a))).1 = (absorb a t l).1 := by
  induction l with
  | nil => rfl
  | cons c rest ih =>
    by_cases h1 : c.author = a
    · by_cases h3 : c.from' > t
      · simp [absorb, h1, h3]
      · simp [absorb, h1, h3, ih]
    · simp [absorb, h1, ih]

/-- The editing author's changes remaining after the absorb loop are
those remaining when the loop runs on the author's changes alone. -/
theorem absorb_snd_filter_own [DecidableEq α] (a : Nat) (t : Nat)
    (l : List (TrackedChange α)) :
    (absorb a t l).2.filter (fun c => c.author == a)
      = (absorb a t (l.filter (fun c => c.author == a))).2 := by
  induction l with
  | nil => rfl
  | cons c rest ih =>
    by_cases h1 : c.author = a
    · by_cases h3 : c.from' > t
      · simp [absorb, h1, h3]
      · simp [absorb, h1, h3, ih]
    · simp [absorb, h1, ih]

/-- The absorb loop keeps every other author's change, in order. -/
theorem absorb_snd_filter_foreign [DecidableEq α] (a : Nat) (t : Nat)
    (l : List (TrackedChange α)) :
    (absorb a t l).2.filter (fun c => c.author != a)
      = l.filter (fun c => c.author != a) := by
  induction l with
  | nil => rfl
  | cons c rest ih =>
    by_cases h1 : c.author = a
    · by_cases h3 : c.from' > t
      · simp [absorb, h1, h3]
      · simp [absorb, h1, h3, ih]
    · simp [absorb, h1, ih]

/-- The function `recordRange` commutes with restriction to one author: other
authors' changes pass through untouched, and the editing author's
changes evolve as if the other authors' changes were absent. -/
theorem recordRange_filter [DecidableEq α] (a : Nat) (doc : List α)
    (f t : Nat) (l : List (TrackedChange α)) :
    (recordRange a doc f t l).1.filter (fun c => c.author != a)
        = l.filter (fun c => c.author != a) ∧
      (recordRange a doc f t l).1.filter (fun c => c.author == a)
        = (recordRange a doc f t (l.filter (fun c => c.author == a))).1 := by
  induction l with
  | nil => simp [recordRange]
  | cons c rest ih =>
    by_cases h1 : c.author = a
    · by_cases h2 : c.to' < f
      · constructor
        · simp [recordRange, h1, h2, ih.1]
        · simp [recordRange, h1, h2, ih.2]
      · by_cases h3 : c.from' > t
        · constructor
          · simp [recordRange, h1, h2, h3]
          · simp [recordRange, h1, h2, h3]
        · constructor
          · simp [recordRange, h1, h2, h3, absorb_snd_filter_foreign]
          · simp [recordRange, h1, h2, h3, absorb_snd_filter_own,
                  absorb_fst_filter]
    · constructor
      · simp [recordRange, h1, ih.1]
      · simp [recordRange, h1, ih.2]

/-- C9: `recordRange` never removes or modifies another author's change
— the sublist of changes belonging to any other author is exactly
preserved — and foreign changes do not influence the merge: the editing
author's changes after the call are those obtained by running
`recordRange` on the author's own changes alone. -/
theorem C9_recordRange_frame [DecidableEq α] (a : Nat) (doc : List α)
    (f t : Nat) (l : List (TrackedChange α)) :
    (recordRange a doc f t l).1.filter (fun c => c.author != a)
        = l.filter (fun c => c.author != a) ∧
      (recordRange a doc f t l).1.filter (fun c => c.author == a)
        = (recordRange a doc f t (l.filter (fun c => c.author == a))).1 :=
  recordRange_filter a doc f t l

/-- Mapping the start of a single replaced range with left bias leaves
it in place. -/
theorem mapNat_single_start (s o n : Nat) :
    mapNat [(s, o, n)] s (-1) = s := by
  by_cases h : o = 0 <;> simp [mapNat, mapPosI, h]

/-- Mapping the end of a single replaced range with right bias lands at
the end of the inserted content. -/
theorem mapNat_single_end (s o n : Nat) :
    mapNat [(s, o, n)] (s + o) 1 = s + n := by
  by_cases h : o = 0
  · subst h
    simp [mapNat, mapPosI]
    omega
  · have h2 : ¬ (s + o = s) := by omega
    simp [mapNat, mapPosI, h, h2]
    omega

/-- Substituting the original slice of `[f, f+o)` back over the
replacement restores the original document. -/
theorem replace_replace_restore (d repl : List α) (f o : Nat)
    (h : f ≤ d.length) :
    replace (replace d f (f + o) repl) f (f + repl.length)
        (sliceDoc d f (f + o)) = d := by
  have htake : (d.take f).length = f := by simp [h]
  have hr : ∀ (D s : List α) (a b : Nat),
      replace D a b s = D.take a ++ s ++ D.drop b := fun _ _ _ _ => rfl
  have h1 : (replace d f (f + o) repl).take f = d.take f := by
    rw [hr, List.append_assoc, List.take_left' htake]
  have h2 : (replace d f (f + o) repl).drop (f + repl.length)
      = d.drop (f + o) := by
    rw [hr, List.drop_left' (by simp [htake])]
  rw [hr (replace d f (f + o) repl), h1, h2]
  have h3 : sliceDoc d f (f + o) = (d.drop f).take o := by
    simp [sliceDoc]
  have h4 : d.drop (f + o) = (d.drop f).drop o := by
    rw [List.drop_drop, Nat.add_comm]
  rw [h3, h4, List.append_assoc, List.take_append_drop,
      List.take_append_drop]

/-- Recording one step on a document with no tracked changes: the
freshly inserted change spans the replacement, keeps the pre-edit slice
as its deleted content, and is dropped when the step is a no-op (empty
replacement over an empty slice). -/
theorem recordStep_nil [DecidableEq α] (a : Nat) (d : List α)
    (s : EditStep α) :
    recordStep a ([], d) s
      = (if s.repl.length = 0 ∧ sliceDoc d s.pos (s.pos + s.oldLen) = []
         then []
         else [⟨s.pos, s.pos + s.repl.length,
               sliceDoc d s.pos (s.pos + s.oldLen), a⟩],
         replace d s.pos (s.pos + s.oldLen) s.repl) := by
  obtain ⟨pos, o, repl⟩ := s
  by_cases hc : repl.length = 0 ∧ sliceDoc d pos (pos + o) = []
  · simp [recordStep, recordRange, mapChanges, lookupSide, stepMapOf,
          TrackedChange.map, mapNat_single_start, mapNat_single_end,
          fromBias, toBias, hc, hc.1, hc.2]
  · simp only [recordStep, recordRange, mapChanges, lookupSide, stepMapOf,
          TrackedChange.map, mapNat_single_start, mapNat_single_end,
          beq_self_eq_true, if_true, fromBias, toBias, if_neg hc]
    rw [if_neg]
    intro h1
    rcases h1 with h1 | ⟨h1, h2⟩
    · omega
    · exact hc ⟨by omega, h2⟩

/-- C1, amended: for a change created by recording a single edit step on
a document with no prior tracked changes, substituting the change's
deleted content back at `[from, to)` of the post-step document yields a
document structurally equal to the pre-step document (the document
immediately before that change's span was modified).  Once other tracked
edits exist elsewhere, the substitution restores only this change's
span, not the historical document. -/
theorem C1_amended_creation_reversion [DecidableEq α] (a : Nat)
    (d : List α) (s : EditStep α) (h : s.pos ≤ d.length) :
    ∀ c ∈ (recordStep a ([], d) s).1,
      replace (recordStep a ([], d) s).2 c.from' c.to' c.deleted = d := by
  intro c hc
  rw [recordStep_nil] at hc ⊢
  split at hc
  · simp at hc
  · simp only [List.mem_singleton] at hc
    subst hc
    exact replace_replace_restore d s.repl s.pos s.oldLen h

/-- C1, witness: recording the step replacing `[1,2)` of `[1,2]` by
`[5,6]` creates the change `⟨1,3,[2]⟩` over the document `[1,5,6]`, and
substituting `[2]` back at `[1,3)` restores `[1,2]`. -/
theorem C1_witness :
    (1 : Nat) ≤ ([1, 2] : List Nat).length ∧
    replace (recordStep 0 ([], [1, 2]) (⟨1, 1, [5, 6]⟩ : EditStep Nat)).2
        1 3 [2] = [1, 2] :=
  ⟨by decide,
   C1_amended_creation_reversion 0 [1, 2] ⟨1, 1, [5, 6]⟩ (by decide)
     ⟨1, 3, [2], 0⟩ (by decide)⟩

/-- The slice of an empty span is empty. -/
theorem sliceDoc_self (d : List α) (p : Nat) : sliceDoc d p p = [] := by
  simp [sliceDoc]

/-- Replacing an empty span with nothing is the identity. -/
theorem replace_self_nil (d : List α) (p : Nat) : replace d p p [] = d := by
  simp [replace]

/-- C6: inserting content at `p` and then deleting exactly the inserted
span `[p, p + n)`, both by the same author and starting from an empty
change set, leaves the change set empty and the document unchanged: the
two edits cancel and no annotation remains. -/
theorem C6_insert_delete_cancel [DecidableEq α] (d ins : List α) (p a : Nat)
    (h : p ≤ d.length) :
    record a [⟨p, 0, ins⟩, ⟨p, ins.length, []⟩] ([], d) = ([], d) := by
  have hrec : record a [⟨p, 0, ins⟩, ⟨p, ins.length, []⟩]
      (([] : List (TrackedChange α)), d)
      = recordStep a (recordStep a ([], d) ⟨p, 0, ins⟩) ⟨p, ins.length, []⟩ :=
    rfl
  rw [hrec]
  by_cases hins : ins = []
  · subst hins
    rw [show recordStep a (([] : List (TrackedChange α)), d) ⟨p, 0, []⟩
          = ([], d) by rw [recordStep_nil]; simp [sliceDoc_self, replace_self_nil]]
    rw [recordStep_nil]
    simp [sliceDoc_self, replace_self_nil]
  · have hstep1 : recordStep a (([] : List (TrackedChange α)), d) ⟨p, 0, ins⟩
        = ([⟨p, p + ins.length, [], a⟩], replace d p p ins) := by
      rw [recordStep_nil]
      simp [sliceDoc_self, hins]
    rw [hstep1]
    have hrr : recordRange a (replace d p p ins) p (p + ins.length)
          [⟨p, p + ins.length, ([] : List α), a⟩]
        = ([⟨p, p + ins.length, [], a⟩],
           some (⟨p, p + ins.length, [], a⟩, -1)) := by
      rw [recordRange]
      rw [if_neg (by simp)]
      rw [if_neg (by simp)]
      simp [absorb]
    have hmapped : TrackedChange.map (⟨p, p + ins.length, ([] : List α), a⟩)
          [(p, ins.length, 0)] true = none := by
      unfold TrackedChange.map
      rw [if_pos]
      right
      refine ⟨?_, rfl⟩
      rw [show fromBias true = -1 from rfl, show toBias true = 1 from rfl,
          mapNat_single_start, mapNat_single_end]
      omega
    have hdoc : replace (replace d p p ins) p (p + ins.length) ([] : List α)
        = d := by
      have := replace_replace_restore d ins p 0 h
      rw [Nat.add_zero, sliceDoc_self] at this
      exact this
    simp only [recordStep, hrr, Option.toList_some, stepMapOf, List.length_nil, mapChanges,
               lookupSide, beq_self_eq_true, if_true, hmapped, hdoc]

/-- C6, witness: inserting `[7,8]` at 1 of `[5,6]` and deleting `[1,3)`
again leaves no tracked change. -/
theorem C6_witness :
    (1 : Nat) ≤ ([5, 6] : List Nat).length ∧
    record 0 [⟨1, 0, [7, 8]⟩, ⟨1, 2, []⟩]
        (([] : List (TrackedChange Nat)), [5, 6]) = ([], [5, 6]) :=
  ⟨by decide, C6_insert_delete_cancel [5, 6] [7, 8] 1 0 (by decide)⟩

/-- A step map with an empty replaced range of an empty span moves no
position. -/
theorem mapNat_noop (f pos : Nat) (assoc : Int) :
    mapNat [(f, 0, 0)] pos assoc = pos := by
  by_cases h1 : f > pos
  · simp [mapNat, mapPosI, h1]
  · by_cases h2 : pos ≤ f
    · have hpf : pos = f := by omega
      subst hpf
      simp [mapNat, mapPosI]
    · simp [mapNat, mapPosI, h1, h2]

/-- Mapping a change through a no-op step map keeps it unchanged, unless
it is degenerate (`from > to`, or `from == to` with nothing deleted), in
which case it is dropped. -/
theorem chmap_noop [DecidableEq α] (c : TrackedChange α) (f : Nat)
    (incl : Bool) :
    c.map [(f, 0, 0)] incl
      = if c.from' > c.to' ∨ (c.from' = c.to' ∧ c.deleted = []) then none
        else some c := by
  unfold TrackedChange.map
  rw [mapNat_noop, mapNat_noop]

/-- When no existing change of the author touches `[f, t]`, `recordRange`
splices a fresh change holding the pre-edit slice into the list and
reports no merge. -/
theorem recordRange_no_match [DecidableEq α] (a : Nat) (d : List α)
    (f t : Nat) (l : List (TrackedChange α))
    (htouch : ∀ c ∈ l, ¬(c.author = a ∧ f ≤ c.to' ∧ c.from' ≤ t)) :
    ∃ l1 l2, l = l1 ++ l2 ∧
      recordRange a d f t l = (l1 ++ ⟨f, t, sliceDoc d f t, a⟩ :: l2, none) := by
  induction l with
  | nil => exact ⟨[], [], rfl, rfl⟩
  | cons c rest ih =>
    by_cases hb : c.author ≠ a ∨ c.to' < f
    · obtain ⟨l1, l2, hsp, hrr⟩ :=
        ih (fun x hx => htouch x (List.mem_cons_of_mem c hx))
      refine ⟨c :: l1, l2, by simp [hsp], ?_⟩
      rw [recordRange, if_pos hb, hrr]
      simp
    · push_neg at hb
      have hft : c.from' > t := by
        have := htouch c (List.mem_cons_self c rest)
        push_neg at this
        exact this hb.1 hb.2
      refine ⟨[], c :: rest, rfl, ?_⟩
      rw [recordRange, if_neg, if_pos hft]
      · simp
      · push_neg
        exact hb

/-- Mapping a list of changes that all survive the map reproduces the
list. -/
theorem filterMap_map_self [DecidableEq α] (l : List (TrackedChange α))
    (m : List (Nat × Nat × Nat)) (au : Option Nat)
    (hk : ∀ c ∈ l, TrackedChange.map c m (au == some c.author) = some c) :
    l.filterMap (fun x => x.map m (au == some x.author)) = l := by
  induction l with
  | nil => rfl
  | cons c rest ih =>
    rw [List.filterMap_cons, hk c (List.mem_cons_self c rest),
        ih (fun x hx => hk x (List.mem_cons_of_mem c hx))]

/-- C8: a zero-length edit span at `f` with empty pre-edit slice,
touching no same-author change, leaves the change set visible after the
step's processing — and the document — unchanged: `recordRange` does
splice in a degenerate change, but the step's `mapChanges` drops it
again, so no annotation for the span remains. -/
theorem C8_noop_span_not_recorded [DecidableEq α] (a : Nat) (d : List α)
    (f : Nat) (l : List (TrackedChange α))
    (htouch : ∀ c ∈ l, ¬(c.author = a ∧ f ≤ c.to' ∧ c.from' ≤ f))
    (hwf : ∀ c ∈ l, c.from' ≤ c.to')
    (hnd : ∀ c ∈ l, ¬(c.from' = c.to' ∧ c.deleted = []))
    (hs : sliceDoc d f f = []) :
    recordStep a (l, d) ⟨f, 0, []⟩ = (l, d) := by
  obtain ⟨l1, l2, hsp, hrr⟩ := recordRange_no_match a d f f l htouch
  have hkeep : ∀ c ∈ l,
      TrackedChange.map c [(f, 0, 0)] ((some a : Option Nat) == some c.author)
        = some c := by
    intro c hc
    rw [chmap_noop, if_neg]
    rintro (h1 | h2)
    · exact absurd h1 (Nat.not_lt.mpr (hwf c hc))
    · exact hnd c hc h2
  have hdeg : TrackedChange.map (⟨f, f, sliceDoc d f f, a⟩ : TrackedChange α)
      [(f, 0, 0)] ((some a : Option Nat) == some a) = none := by
    rw [chmap_noop, if_pos]
    exact Or.inr ⟨rfl, hs⟩
  simp only [recordStep, Nat.add_zero, hrr, Option.toList_none, stepMapOf,
             List.length_nil, mapChanges_no_updated, List.filterMap_append,
             List.filterMap_cons]
  rw [hdeg]
  rw [filterMap_map_self l1 _ (some a)
        (fun c hc => hkeep c (hsp ▸ List.mem_append_left l2 hc)),
      filterMap_map_self l2 _ (some a)
        (fun c hc => hkeep c (hsp ▸ List.mem_append_right l1 hc))]
  rw [show replace d f f ([] : List α) = d from replace_self_nil d f]
  simp [hsp]

/-- C8, witness: a no-op step at position 2 over `[9,9]`, with an
unrelated change by another author present, records nothing. -/
theorem C8_witness :
    sliceDoc ([9, 9] : List Nat) 2 2 = [] ∧
    recordStep 1 ([(⟨0, 1, [9], 0⟩ : TrackedChange Nat)], [9, 9]) ⟨2, 0, []⟩
      = ([⟨0, 1, [9], 0⟩], [9, 9]) :=
  ⟨by decide,
   C8_noop_span_not_recorded 1 [9, 9] 2 [⟨0, 1, [9], 0⟩]
     (by decide) (by decide) (by decide) (by decide)⟩

/-- C5, amended: minimizing with the start side, (a) no divergence
between the post-edit content and the reconstructed pre-edit content
drops the change; (b) a divergence at or after the change's end (at a
nonzero position) returns the change unchanged — it is kept, not
dropped; (c) a divergence strictly between `from` and `to` trims the
change's start to the divergence point, re-slicing the deleted content
from the reconstruction. -/
theorem C5_amended_minimize_start [DecidableEq α] (c : TrackedChange α)
    (doc : List α) :
    (findDiffStart doc (replace doc c.from' c.to' c.deleted) 0 = none →
      minimizeChange c doc (-1) = none) ∧
    (∀ ds, findDiffStart doc (replace doc c.from' c.to' c.deleted) 0 = some ds →
      0 < ds → c.to' ≤ ds →
      minimizeChange c doc (-1) = some c) ∧
    (∀ ds, findDiffStart doc (replace doc c.from' c.to' c.deleted) 0 = some ds →
      c.from' < ds → ds < c.to' →
      minimizeChange c doc (-1)
        = some ⟨ds, c.to',
            sliceDoc (replace doc c.from' c.to' c.deleted) ds
              (mapNat [(c.from', c.to' - c.from', c.deleted.length)] c.to' 1),
            c.author⟩) := by
  refine ⟨fun h => by simp [minimizeChange, h], ?_, ?_⟩
  · intro ds h h0 hge
    simp only [minimizeChange, if_true, h]
    rw [if_neg (by omega), if_pos (Or.inr hge)]
  · intro ds h h1 h2
    simp only [minimizeChange, if_true, h]
    rw [if_neg (by omega), if_neg (by omega)]

/-- C5, witness: the change `⟨1,4,[6,9]⟩` over `[5,6,7,8]` reconstructs
to `[5,6,9]`, diverging first at 2, strictly inside `[1,4)`; minimizing
trims the start to 2 and re-slices the deleted content. -/
theorem C5_witness :
    ((1 : Nat) < 2 ∧ (2 : Nat) < 4) ∧
    minimizeChange (⟨1, 4, [6, 9], 0⟩ : TrackedChange Nat) [5, 6, 7, 8] (-1)
      = some ⟨2, 4,
          sliceDoc (replace [5, 6, 7, 8] 1 4 [6, 9]) 2
            (mapNat [(1, 3, 2)] 4 1), 0⟩ :=
  ⟨by decide,
   (C5_amended_minimize_start (⟨1, 4, [6, 9], 0⟩ : TrackedChange Nat)
     [5, 6, 7, 8]).2.2 2 (by decide) (by decide) (by decide)⟩

/-- The default last element of a nonempty extension is a member. -/
theorem getLastD_mem_cons' (l : List (TrackedChange α)) (c : TrackedChange α) :
    l.getLastD c ∈ c :: l := by
  rw [List.getLastD_eq_getLast?]
  cases hl : l.getLast? with
  | none => simp
  | some x =>
    exact List.mem_cons_of_mem c (List.mem_of_mem_getLast? hl)

/-- Folding `min` over values no smaller than the accumulator returns
the accumulator. -/
theorem foldl_min_const (ns : List Nat) (a : Nat) (h : ∀ x ∈ ns, a ≤ x) :
    ns.foldl min a = a := by
  induction ns generalizing a with
  | nil => rfl
  | cons x xs ih =>
    have hx : min a x = a := Nat.min_eq_left (h x (by simp))
    simp only [List.foldl_cons, hx]
    exact ih a (fun y hy => h y (by simp [hy]))

/-- Folding `max` over a chain-increasing nonempty list of ends yields
the last end joined with the accumulator. -/
theorem foldl_max_chain (c : TrackedChange α) (l : List (TrackedChange α))
    (a : Nat) (h : ∀ x ∈ l, c.to' ≤ x.to')
    (h2 : l.Pairwise (fun x y => x.to' ≤ y.to')) :
    ((c :: l).map TrackedChange.to').foldl max a = max ((l.getLastD c).to') a := by
  induction l generalizing c a with
  | nil => simp [Nat.max_comm]
  | cons x xs ih =>
    have hxxs : ∀ y ∈ xs, x.to' ≤ y.to' := by
      intro y hy
      exact (List.pairwise_cons.mp h2).1 y hy
    have hcl : c.to' ≤ (xs.getLastD x).to' := by
      have hmem := getLastD_mem_cons' xs x
      rcases List.mem_cons.mp hmem with he | hm
      · rw [he]; exact h x (by simp)
      · exact le_trans (h x (by simp)) (hxxs _ hm)
    have := ih x (max a c.to') hxxs (List.pairwise_cons.mp h2).2
    simp only [List.map_cons, List.foldl_cons] at this ⊢
    rw [this, List.getLastD_cons]
    omega

/-- Under the per-author separation invariant, the absorb loop splits
the list by the absorption condition: it takes exactly the same-author
changes starting no later than `to` and keeps everything else. -/
theorem absorb_eq_filter [DecidableEq α] (a t : Nat)
    (l : List (TrackedChange α))
    (hwf : ∀ x ∈ l, x.from' ≤ x.to')
    (hsep : (l.filter (fun x => x.author == a)).Pairwise
      (fun x y => x.to' < y.from')) :
    absorb a t l
      = (l.filter (absorbedBy a t), l.filter (fun x => !(absorbedBy a t x))) := by
  induction l with
  | nil => rfl
  | cons x r ih =>
    by_cases hx : x.author = a
    · by_cases hxf : x.from' > t
      · have hnone : ∀ y ∈ r, absorbedBy a t y = false := by
          intro y hy
          by_cases hya : y.author = a
          · have hyf : x.to' < y.from' := by
              have hfil : (x :: r).filter (fun z => z.author == a)
                  = x :: r.filter (fun z => z.author == a) := by
                simp [hx]
              rw [hfil] at hsep
              exact (List.pairwise_cons.mp hsep).1 y
                (List.mem_filter.mpr ⟨hy, by simp [hya]⟩)
            have : t < y.from' := by
              have := hwf x (by simp)
              omega
            simp [absorbedBy, Nat.not_le.mpr this]
          · simp [absorbedBy, hya]
        have h1 : List.filter (absorbedBy a t) (x :: r) = [] := by
          rw [List.filter_cons_of_neg (by simp [absorbedBy, hx, Nat.not_le.mpr hxf]),
              List.filter_eq_nil_iff.mpr (by intro y hy; simp [hnone y hy])]
        have h2 : List.filter (fun y => !(absorbedBy a t y)) (x :: r)
            = x :: r := by
          rw [List.filter_cons_of_pos (by simp [absorbedBy, hx, Nat.not_le.mpr hxf]),
              List.filter_eq_self.mpr (by intro y hy; simp [hnone y hy])]
        rw [h1, h2, absorb, if_neg (by simp [hx]), if_pos hxf]
      · have habs : absorbedBy a t x = true := by
          simp [absorbedBy, hx]
          omega
        have hsep' : (r.filter (fun z => z.author == a)).Pairwise
            (fun x y => x.to' < y.from') := by
          have hfil : (x :: r).filter (fun z => z.author == a)
              = x :: r.filter (fun z => z.author == a) := by
            simp [hx]
          rw [hfil] at hsep
          exact (List.pairwise_cons.mp hsep).2
        have := ih (fun y hy => hwf y (by simp [hy])) hsep'
        rw [absorb, if_neg (by simp [hx]), if_neg hxf, this,
            List.filter_cons_of_pos habs,
            List.filter_cons_of_neg (by simp [habs])]
    · have hsep' : (r.filter (fun z => z.author == a)).Pairwise
          (fun x y => x.to' < y.from') := by
        have hfil : (x :: r).filter (fun z => z.author == a)
            = r.filter (fun z => z.author == a) := by
          simp [hx]
        rwa [hfil] at hsep
      have := ih (fun y hy => hwf y (by simp [hy])) hsep'
      rw [absorb, if_pos (by simp [hx]), this,
          List.filter_cons_of_neg (by simp [absorbedBy, hx]),
          List.filter_cons_of_pos (by simp [absorbedBy, hx])]

/-- The scan of `recordRange` passes over changes of other authors and
same-author changes ending before `from`. -/
theorem recordRange_skip_run [DecidableEq α] (a : Nat) (d : List α)
    (f t : Nat) (pre l : List (TrackedChange α))
    (hpre : ∀ x ∈ pre, x.author ≠ a ∨ x.to' < f) :
    recordRange a d f t (pre ++ l)
      = (pre ++ (recordRange a d f t l).1, (recordRange a d f t l).2) := by
  induction pre with
  | nil => simp
  | cons x p ih =>
    rw [List.cons_append, recordRange, if_pos (hpre x (by simp))]
    simp only [ih (fun y hy => hpre y (by simp [hy])), List.cons_append]

/-- C3: when at least one same-author change touches the edited span
`[f, t)`, `recordRange` replaces the whole matching run by exactly one
merged change whose start is the minimum of the absorbed changes'
starts and `f`, whose end is the maximum of the absorbed changes' ends
and `t`, and whose deleted content is recomputed from the pre-edit
document exactly when the edited span extends beyond the single
absorbed change or more than one change was absorbed, the single
absorbed change's existing deleted content being kept otherwise; all
other changes stay, in order. -/
theorem C3_recordRange_merge [DecidableEq α] (a : Nat) (d : List α)
    (f t : Nat) (pre rest : List (TrackedChange α)) (c : TrackedChange α)
    (hpre : ∀ x ∈ pre, x.author ≠ a ∨ x.to' < f)
    (hca : c.author = a) (hcf : f ≤ c.to') (hct : c.from' ≤ t)
    (hwf : ∀ x ∈ c :: rest, x.from' ≤ x.to')
    (hsep : ((c :: rest).filter (fun x => x.author == a)).Pairwise
      (fun x y => x.to' < y.from')) :
    recordRange a d f t (pre ++ c :: rest)
      = (pre ++ mergedOf a d f t c rest ::
          rest.filter (fun x => !(absorbedBy a t x)),
         some (mergedOf a d f t c rest, if f ≤ c.from' then -1 else 1)) := by
  have hwfr : ∀ x ∈ rest, x.from' ≤ x.to' := fun x hx => hwf x (by simp [hx])
  have hfil : (c :: rest).filter (fun x => x.author == a)
      = c :: rest.filter (fun x => x.author == a) := by simp [hca]
  rw [hfil] at hsep
  have hsepr := (List.pairwise_cons.mp hsep).2
  have hhead := (List.pairwise_cons.mp hsep).1
  have hsubf : ∀ x ∈ rest.filter (absorbedBy a t),
      x ∈ rest.filter (fun z => z.author == a) := by
    intro x hx
    have hm := List.mem_filter.mp hx
    refine List.mem_filter.mpr ⟨hm.1, ?_⟩
    have := hm.2
    simp only [absorbedBy, Bool.and_eq_true] at this
    exact this.1
  have hheadf : ∀ x ∈ rest.filter (absorbedBy a t), c.to' < x.from' :=
    fun x hx => hhead x (hsubf x hx)
  have hFrom : ((mergeRun a t c rest).map TrackedChange.from').foldl min f
      = min c.from' f := by
    simp only [mergeRun, List.map_cons, List.foldl_cons]
    rw [foldl_min_const]
    · exact Nat.min_comm f c.from'
    · intro y hy
      obtain ⟨x, hx, hxy⟩ := List.mem_map.mp hy
      have := hheadf x hx
      have := hwf c (by simp)
      omega
  have hsubl : List.Sublist (rest.filter (absorbedBy a t))
      (rest.filter (fun z => z.author == a)) := by
    apply List.monotone_filter_right
    intro x hx
    simp only [absorbedBy, Bool.and_eq_true] at hx
    exact hx.1
  have hchain : (rest.filter (absorbedBy a t)).Pairwise
      (fun x y => x.to' ≤ y.to') := by
    have hp := hsepr.sublist hsubl
    refine hp.imp_of_mem ?_
    intro x y hx hy hxy
    have := hwfr y (List.mem_of_mem_filter hy)
    omega
  have hTo : ((mergeRun a t c rest).map TrackedChange.to').foldl max t
      = max (((rest.filter (absorbedBy a t)).getLastD c).to') t := by
    exact foldl_max_chain c (rest.filter (absorbedBy a t)) t
      (fun x hx => le_of_lt (lt_of_lt_of_le (hheadf x hx)
        (hwfr x (List.mem_of_mem_filter hx)))) hchain
  rw [recordRange_skip_run a d f t pre _ hpre]
  rw [recordRange, if_neg (by rw [not_or]; exact ⟨by simp [hca], by omega⟩),
      if_neg (by omega)]
  simp only [absorb_eq_filter a t rest hwfr hsepr]
  have hlen : (mergeRun a t c rest).length > 1
      ↔ rest.filter (absorbedBy a t) ≠ [] := by
    simp only [mergeRun, List.length_cons]
    constructor
    · intro h hnil
      rw [hnil] at h
      simp at h
    · intro h
      have := List.length_pos.mpr h
      omega
  have hcond : ((decide (f < c.from') || decide (t > c.to') ||
      decide (rest.filter (absorbedBy a t) ≠ [])) = true)
      ↔ (f < c.from' ∨ t > c.to' ∨ (mergeRun a t c rest).length > 1) := by
    rw [Bool.or_eq_true, Bool.or_eq_true, decide_eq_true_eq,
        decide_eq_true_eq, decide_eq_true_eq, hlen, or_assoc]
  have hmerged : mergedOf a d f t c rest
      = (⟨min c.from' f,
          max (((rest.filter (absorbedBy a t)).getLastD c).to') t,
          if (decide (f < c.from') || decide (t > c.to') ||
              decide (rest.filter (absorbedBy a t) ≠ [])) = true
          then applyAndSlice d (mergeRun a t c rest)
                 (min c.from' f)
                 (max (((rest.filter (absorbedBy a t)).getLastD c).to') t)
          else c.deleted,
          a⟩ : TrackedChange α) := by
    simp only [mergedOf]
    rw [hFrom, hTo, if_congr hcond.symm rfl rfl]
  rw [hmerged]
  simp [mergeRun, hca]

/-- C3, witness: on document `[0,7,2,8,4]` with the author-0 changes
`(1,2)` and `(3,4)`, recording `[2,3)` merges both into the single
change `⟨1,4,[1,2,3]⟩`, whose deleted content is recomputed by
re-applying the absorbed deletions. -/
theorem C3_witness :
    mergedOf 0 [0, 7, 2, 8, 4] 2 3 (⟨1, 2, [1], 0⟩ : TrackedChange Nat)
        [⟨3, 4, [3], 0⟩] = ⟨1, 4, [1, 2, 3], 0⟩ ∧
    recordRange 0 [0, 7, 2, 8, 4] 2 3
        ([] ++ (⟨1, 2, [1], 0⟩ : TrackedChange Nat) :: [⟨3, 4, [3], 0⟩])
      = ([] ++ mergedOf 0 [0, 7, 2, 8, 4] 2 3 ⟨1, 2, [1], 0⟩ [⟨3, 4, [3], 0⟩] ::
          List.filter (fun x => !(absorbedBy 0 3 x)) [⟨3, 4, [3], 0⟩],
         some (mergedOf 0 [0, 7, 2, 8, 4] 2 3 ⟨1, 2, [1], 0⟩ [⟨3, 4, [3], 0⟩],
               if (2 : Nat) ≤ 1 then -1 else 1)) :=
  ⟨by decide,
   C3_recordRange_merge 0 [0, 7, 2, 8, 4] 2 3 [] [⟨3, 4, [3], 0⟩]
     ⟨1, 2, [1], 0⟩ (by simp) (by decide) (by decide) (by decide)
     (by decide) (by decide)⟩

/-- What the absorb loop keeps is a sublist of its input. -/
theorem absorb_snd_sublist [DecidableEq α] (a t : Nat)
    (l : List (TrackedChange α)) :
    List.Sublist (absorb a t l).2 l := by
  induction l with
  | nil => simp [absorb]
  | cons c rest ih =>
    rw [absorb]
    split_ifs
    · exact List.Sublist.cons₂ c ih
    · exact List.Sublist.refl _
    · exact List.Sublist.cons c ih

/-- Every change in the output of `recordRange` starts at or after any
common lower bound of the input changes' starts and `from`. -/
theorem recordRange_from_lb [DecidableEq α] (a : Nat) (d : List α)
    (f t m : Nat) (l : List (TrackedChange α))
    (hl : ∀ x ∈ l, m ≤ x.from') (hf : m ≤ f) :
    ∀ y ∈ (recordRange a d f t l).1, m ≤ y.from' := by
  induction l with
  | nil =>
    intro y hy
    simp only [recordRange, List.mem_singleton] at hy
    simp [hy, hf]
  | cons c rest ih =>
    intro y hy
    rw [recordRange] at hy
    by_cases h1 : c.author ≠ a ∨ c.to' < f
    · rw [if_pos h1] at hy
      simp only [List.mem_cons] at hy
      rcases hy with he | hm
      · exact he ▸ hl c (by simp)
      · exact ih (fun x hx => hl x (by simp [hx])) y hm
    · rw [if_neg h1] at hy
      by_cases h2 : c.from' > t
      · rw [if_pos h2] at hy
        simp only [List.mem_cons] at hy
        rcases hy with he | he | hm
        · simp [he, hf]
        · exact he ▸ hl c (by simp)
        · exact hl y (by simp [hm])
      · rw [if_neg h2] at hy
        simp only [List.mem_cons] at hy
        rcases hy with he | hm
        · have hmin : m ≤ min c.from' f := le_min (hl c (by simp)) hf
          simp [he]
          omega
        · exact hl y (by
            have := (absorb_snd_sublist a t rest).mem hm
            simp [this])

/-- On a list of changes all belonging to the editing author,
`recordRange` preserves well-formedness and strict separation of the
ranges. -/
theorem recordRange_single_inv [DecidableEq α] (a : Nat) (d : List α)
    (f t : Nat) (l : List (TrackedChange α))
    (hauth : ∀ x ∈ l, x.author = a)
    (hwf : ∀ x ∈ l, x.from' ≤ x.to')
    (hsep : l.Pairwise (fun x y => x.to' < y.from'))
    (hft : f ≤ t) :
    (∀ x ∈ (recordRange a d f t l).1, x.from' ≤ x.to') ∧
    (recordRange a d f t l).1.Pairwise (fun x y => x.to' < y.from') := by
  induction l with
  | nil =>
    constructor
    · intro x hx
      simp only [recordRange, List.mem_singleton] at hx
      simp [hx, hft]
    · simp [recordRange]
  | cons c rest ih =>
    have hsep' := (List.pairwise_cons.mp hsep).2
    have hhead := (List.pairwise_cons.mp hsep).1
    have hwfr : ∀ x ∈ rest, x.from' ≤ x.to' := fun x hx => hwf x (by simp [hx])
    have hauthr : ∀ x ∈ rest, x.author = a := fun x hx => hauth x (by simp [hx])
    by_cases h1 : c.author ≠ a ∨ c.to' < f
    · have hcf : c.to' < f := by
        rcases h1 with h | h
        · exact absurd (hauth c (by simp)) h
        · exact h
      have heq : (recordRange a d f t (c :: rest)).1
          = c :: (recordRange a d f t rest).1 := by
        rw [recordRange, if_pos h1]
      obtain ⟨ihwf, ihsep⟩ := ih hauthr hwfr hsep'
      rw [heq]
      constructor
      · intro x hx
        rcases List.mem_cons.mp hx with he | hm
        · exact he ▸ hwf c (by simp)
        · exact ihwf x hm
      · refine List.pairwise_cons.mpr ⟨?_, ihsep⟩
        intro y hy
        have := recordRange_from_lb a d f t (c.to' + 1) rest
          (fun x hx => Nat.succ_le_of_lt (hhead x hx))
          (Nat.succ_le_of_lt hcf) y hy
        omega
    · by_cases h2 : c.from' > t
      · have heq : (recordRange a d f t (c :: rest)).1
            = ⟨f, t, sliceDoc d f t, a⟩ :: c :: rest := by
          rw [recordRange, if_neg h1, if_pos h2]
        rw [heq]
        constructor
        · intro x hx
          rcases List.mem_cons.mp hx with he | hm
          · simp [he, hft]
          · exact hwf x hm
        · refine List.pairwise_cons.mpr ⟨?_, hsep⟩
          intro y hy
          rcases List.mem_cons.mp hy with he | hm
          · simp [he]
            omega
          · have h3 := hhead y hm
            have h4 := hwf c (by simp)
            simp
            omega
      · have hfeq : rest.filter (fun x => x.author == a) = rest :=
          List.filter_eq_self.mpr (fun x hx => by simp [hauthr x hx])
        have habs := absorb_eq_filter a t rest hwfr (by rw [hfeq]; exact hsep')
        have heq : (recordRange a d f t (c :: rest)).1
            = (⟨min c.from' f,
                max (((rest.filter (absorbedBy a t)).getLastD c).to') t,
                if (decide (f < c.from') || decide (t > c.to') ||
                    decide (rest.filter (absorbedBy a t) ≠ [])) = true
                then applyAndSlice d (c :: rest.filter (absorbedBy a t))
                       (min c.from' f)
                       (max (((rest.filter (absorbedBy a t)).getLastD c).to') t)
                else c.deleted,
                c.author⟩ : TrackedChange α) ::
              rest.filter (fun x => !(absorbedBy a t x)) := by
          rw [recordRange, if_neg h1, if_neg h2]
          simp only [habs]
        rw [heq]
        have hNrest : ∀ y ∈ rest.filter (fun x => !(absorbedBy a t x)),
            y ∈ rest := fun y hy => List.mem_of_mem_filter hy
        have hNt : ∀ y ∈ rest.filter (fun x => !(absorbedBy a t x)),
            t < y.from' := by
          intro y hy
          have h5 := (List.mem_filter.mp hy).2
          simp only [absorbedBy, Bool.not_eq_eq_eq_not, Bool.not_true,
            Bool.and_eq_false_iff] at h5
          rcases h5 with h5 | h5
          · exact absurd (hauthr y (hNrest y hy)) (by simpa using h5)
          · simpa using h5
        constructor
        · intro x hx
          rcases List.mem_cons.mp hx with he | hm
          · simp [he]
            omega
          · exact hwfr x (hNrest x hm)
        · refine List.pairwise_cons.mpr ⟨?_, hsep'.sublist (List.filter_sublist _)⟩
          intro y hy
          have hyt := hNt y hy
          have hg := getLastD_mem_cons' (rest.filter (absorbedBy a t)) c
          simp only
          have hgy : ((rest.filter (absorbedBy a t)).getLastD c).to' < y.from' := by
            rcases List.mem_cons.mp hg with he | hm
            · rw [he]
              exact hhead y (hNrest y hy)
            · have hgrest := List.mem_of_mem_filter hm
              have hgt : ((rest.filter (absorbedBy a t)).getLastD c).from' ≤ t := by
                have h6 := (List.mem_filter.mp hm).2
                simp only [absorbedBy, Bool.and_eq_true, decide_eq_true_eq] at h6
                exact h6.2
              have hsymm : rest.Pairwise
                  (fun u v => u.to' < v.from' ∨ v.to' < u.from') :=
                hsep'.imp (fun h => Or.inl h)
              have hne : (rest.filter (absorbedBy a t)).getLastD c ≠ y := by
                intro he
                rw [he] at hgt
                omega
              rcases hsymm.forall (fun u v h => h.symm) hgrest
                  (hNrest y hy) hne with h7 | h7
              · exact h7
              · have := hwfr y (hNrest y hy)
                omega
          omega

/-- Filtering by an author other than `b` first does not change a
filter by `b`. -/
theorem filter_author_through_ne [DecidableEq α] (b a : Nat) (hba : b ≠ a)
    (L : List (TrackedChange α)) :
    (L.filter (fun x => x.author != a)).filter (fun x => x.author == b)
      = L.filter (fun x => x.author == b) := by
  rw [List.filter_filter]
  apply List.filter_congr
  intro x hx
  by_cases hxb : x.author = b
  · simp [hxb, hba]
  · simp [hxb]

/-- The function `recordRange` with a well-formed span preserves well-formedness and
per-author separation of the change set. -/
theorem recordRange_preserves_inv [DecidableEq α] (a : Nat) (d : List α)
    (f t : Nat) (l : List (TrackedChange α))
    (hwf : ∀ x ∈ l, x.from' ≤ x.to') (hsep : perAuthorSep l) (hft : f ≤ t) :
    (∀ x ∈ (recordRange a d f t l).1, x.from' ≤ x.to') ∧
    perAuthorSep (recordRange a d f t l).1 := by
  have hsingle := recordRange_single_inv a d f t
    (l.filter (fun x => x.author == a))
    (fun x hx => by simpa using (List.mem_filter.mp hx).2)
    (fun x hx => hwf x (List.mem_of_mem_filter hx)) (hsep a) hft
  have hfa : (recordRange a d f t l).1.filter (fun x => x.author == a)
      = (recordRange a d f t (l.filter (fun x => x.author == a))).1 :=
    (recordRange_filter a d f t l).2
  have hfb : ∀ b, b ≠ a →
      (recordRange a d f t l).1.filter (fun x => x.author == b)
        = l.filter (fun x => x.author == b) := by
    intro b hba
    rw [← filter_author_through_ne b a hba,
        (recordRange_filter a d f t l).1,
        filter_author_through_ne b a hba]
  constructor
  · intro x hx
    by_cases hxa : x.author = a
    · have hxm : x ∈ (recordRange a d f t l).1.filter
          (fun z => z.author == a) := List.mem_filter.mpr ⟨hx, by simp [hxa]⟩
      rw [hfa] at hxm
      exact hsingle.1 x hxm
    · have hxm : x ∈ (recordRange a d f t l).1.filter
          (fun z => z.author == x.author) :=
        List.mem_filter.mpr ⟨hx, by simp⟩
      rw [hfb x.author hxa] at hxm
      exact hwf x (List.mem_of_mem_filter hxm)
  · intro b
    by_cases hba : b = a
    · rw [hba, hfa]
      exact hsingle.2
    · rw [hfb b hba]
      exact hsep b

/-- Listwise non-overlap follows from the per-author filtered
invariants. -/
theorem pairwise_of_perAuthorSep [DecidableEq α]
    (l : List (TrackedChange α)) (h : perAuthorSep l) :
    l.Pairwise (fun x y => x.author = y.author →
      x.to' < y.from' ∨ y.to' < x.from') := by
  induction l with
  | nil => exact List.Pairwise.nil
  | cons c rest ih =>
    refine List.pairwise_cons.mpr ⟨?_, ?_⟩
    · intro y hy hauth
      have hfil : (c :: rest).filter (fun x => x.author == c.author)
          = c :: rest.filter (fun x => x.author == c.author) := by
        simp
      have hp := h c.author
      rw [hfil] at hp
      have := (List.pairwise_cons.mp hp).1 y
        (List.mem_filter.mpr ⟨hy, by simp [hauth]⟩)
      exact Or.inl this
    · refine ih ?_
      intro b
      have hp := h b
      have : List.Sublist (rest.filter (fun x => x.author == b))
          ((c :: rest).filter (fun x => x.author == b)) := by
        by_cases hcb : c.author = b
        · simp [hcb]
        · simp [List.filter_cons, hcb]
      exact hp.sublist this

/-- C2, amended: starting from the empty change set, after any sequence
of `recordRange` operations with well-formed spans, no two changes of
the same author overlap or touch.  (An intervening `mapChanges` through
an arbitrary position map can break this; see the counterexample.) -/
theorem C2_amended_recordRange_separation [DecidableEq α]
    (ops : List (RecOp α)) (hops : ∀ op ∈ ops, op.rfrom ≤ op.rto) :
    (recordRangeSeq ops).Pairwise (fun x y => x.author = y.author →
      x.to' < y.from' ∨ y.to' < x.from') := by
  have main : ∀ (ops' : List (RecOp α)) (init : List (TrackedChange α)),
      (∀ op ∈ ops', op.rfrom ≤ op.rto) →
      (∀ x ∈ init, x.from' ≤ x.to') → perAuthorSep init →
      (∀ x ∈ ops'.foldl
          (fun l op => (recordRange op.author op.doc op.rfrom op.rto l).1)
          init, x.from' ≤ x.to') ∧
      perAuthorSep (ops'.foldl
        (fun l op => (recordRange op.author op.doc op.rfrom op.rto l).1)
        init) := by
    intro ops'
    induction ops' with
    | nil => exact fun init _ hwf hsep => ⟨hwf, hsep⟩
    | cons op rest ih =>
      intro init hops' hwf hsep
      simp only [List.foldl_cons]
      have hstep := recordRange_preserves_inv op.author op.doc op.rfrom
        op.rto init hwf hsep (hops' op (by simp))
      exact ih _ (fun o ho => hops' o (by simp [ho])) hstep.1 hstep.2
  exact pairwise_of_perAuthorSep _
    (main ops [] hops (by simp) (fun b => by simp)).2

/-- C2, witness: two recordings by author 0 over `[5,6,7]` leave the
separated changes `(1,2)` and `(3,3)`. -/
theorem C2_amended_witness :
    recordRangeSeq [(⟨0, [5, 6, 7], 1, 2⟩ : RecOp Nat), ⟨0, [5, 6, 7], 3, 3⟩]
      = [⟨1, 2, [6], 0⟩, ⟨3, 3, [], 0⟩] ∧
    (recordRangeSeq
        [(⟨0, [5, 6, 7], 1, 2⟩ : RecOp Nat), ⟨0, [5, 6, 7], 3, 3⟩]).Pairwise
      (fun x y => x.author = y.author →
        x.to' < y.from' ∨ y.to' < x.from') :=
  ⟨by decide,
   C2_amended_recordRange_separation
     [⟨0, [5, 6, 7], 1, 2⟩, ⟨0, [5, 6, 7], 3, 3⟩] (by decide)⟩

/-- Mapping through a single replaced range with a fixed bias is
monotone in the position. -/
theorem mapNat_single_mono (s o n p q : Nat) (b : Int) (h : p ≤ q) :
    mapNat [(s, o, n)] p b ≤ mapNat [(s, o, n)] q b := by
  unfold mapNat
  simp only [mapPosI]
  split_ifs <;> omega

/-- A surviving mapped change is exactly the change with both endpoints
mapped, keeping deleted content and author. -/
theorem chmap_some [DecidableEq α] (c y : TrackedChange α)
    (m : List (Nat × Nat × Nat)) (incl : Bool)
    (h : c.map m incl = some y) :
    y = ⟨mapNat m c.from' (fromBias incl), mapNat m c.to' (toBias incl),
         c.deleted, c.author⟩ := by
  simp only [TrackedChange.map] at h
  split_ifs at h
  exact ((Option.some.injEq _ _).mp h).symm

/-- Restriction to one author commutes with `mapChanges` (without
freshly updated changes). -/
theorem mapChanges_filter_author [DecidableEq α]
    (l : List (TrackedChange α)) (m : List (Nat × Nat × Nat))
    (au : Option Nat) (d : List α) (b : Nat) :
    (mapChanges l m au [] d).filter (fun x => x.author == b)
      = mapChanges (l.filter (fun x => x.author == b)) m au [] d := by
  induction l with
  | nil => rfl
  | cons c rest ih =>
    by_cases hcb : c.author = b
    · rw [List.filter_cons_of_pos (by simp [hcb])]
      cases hmap : c.map m (au == some c.author) with
      | none =>
        rw [mapChanges, lookupSide, hmap]
        rw [mapChanges, lookupSide, hmap]
        exact ih
      | some y =>
        have hy := chmap_some c y m (au == some c.author) hmap
        rw [mapChanges, lookupSide, hmap]
        rw [mapChanges, lookupSide, hmap]
        rw [List.filter_cons_of_pos (by simp [hy, hcb])]
        rw [ih]
    · rw [List.filter_cons_of_neg (by simp [hcb])]
      cases hmap : c.map m (au == some c.author) with
      | none =>
        rw [mapChanges, lookupSide, hmap]
        exact ih
      | some y =>
        have hy := chmap_some c y m (au == some c.author) hmap
        rw [mapChanges, lookupSide, hmap]
        rw [List.filter_cons_of_neg (by simp [hy, hcb])]
        exact ih

/-- Mapping a single-author change list through a single-range map
(without freshly updated changes) preserves from-sortedness, because
every endpoint is mapped with the same bias and the map is monotone. -/
theorem mapChanges_sorted_single [DecidableEq α] (b : Nat)
    (l : List (TrackedChange α)) (s o n : Nat) (au : Option Nat)
    (d : List α) (hauth : ∀ x ∈ l, x.author = b)
    (hsort : l.Pairwise (fun x y => x.from' ≤ y.from')) :
    (mapChanges l [(s, o, n)] au [] d).Pairwise
      (fun x y => x.from' ≤ y.from') := by
  induction l with
  | nil => exact List.Pairwise.nil
  | cons c rest ih =>
    have hsort' := (List.pairwise_cons.mp hsort).2
    have hhead := (List.pairwise_cons.mp hsort).1
    have hauthr : ∀ x ∈ rest, x.author = b := fun x hx => hauth x (by simp [hx])
    cases hmap : c.map [(s, o, n)] (au == some c.author) with
    | none =>
      rw [mapChanges, lookupSide, hmap]
      exact ih hauthr hsort'
    | some y =>
      rw [mapChanges, lookupSide, hmap]
      refine List.pairwise_cons.mpr ⟨?_, ih hauthr hsort'⟩
      intro z hz
      rw [mapChanges_no_updated] at hz
      obtain ⟨x, hx, hxz⟩ := List.mem_filterMap.mp hz
      have hy := chmap_some c y _ _ hmap
      have hzc := chmap_some x z _ _ hxz
      have hflag : (au == some x.author) = (au == some c.author) := by
        rw [hauth x (by simp [hx]), hauth c (by simp)]
      rw [hy, hzc, hflag]
      exact mapNat_single_mono s o n c.from' x.from' _ (hhead x hx)

/-- C7, amended: the whole change set need not remain sorted by `from`
once several authors' changes interleave (see the counterexample), but
each author's changes always form a from-sorted subsequence: both
`recordRange` on a well-formed, per-author separated set and
`mapChanges` through a single-range step map with no freshly updated
changes return lists whose per-author subsequences are sorted by
`from`. -/
theorem C7_amended_per_author_sorted [DecidableEq α] (a : Nat) (d : List α)
    (f t : Nat) (l : List (TrackedChange α)) (s o n : Nat) (au : Option Nat)
    (dd : List α)
    (hwf : ∀ x ∈ l, x.from' ≤ x.to') (hsep : perAuthorSep l) (hft : f ≤ t) :
    (∀ b, (((recordRange a d f t l).1.filter
        (fun x => x.author == b)).Pairwise
          (fun x y => x.from' ≤ y.from'))) ∧
    (∀ b, (((mapChanges l [(s, o, n)] au [] dd).filter
        (fun x => x.author == b)).Pairwise
          (fun x y => x.from' ≤ y.from'))) := by
  constructor
  · intro b
    have hinv := recordRange_preserves_inv a d f t l hwf hsep hft
    refine (hinv.2 b).imp_of_mem ?_
    intro x y hx hy hxy
    have := hinv.1 x (List.mem_of_mem_filter hx)
    omega
  · intro b
    rw [mapChanges_filter_author]
    apply mapChanges_sorted_single b _ s o n au dd
    · intro x hx
      simpa using (List.mem_filter.mp hx).2
    · refine (hsep b).imp_of_mem ?_
      intro x y hx hy hxy
      have := hwf x (List.mem_of_mem_filter hx)
      omega

/-- C7, witness: recording `[1,2)` on an empty set and mapping an empty
set both yield per-author sorted lists. -/
theorem C7_amended_witness :
    (1 : Nat) ≤ 2 ∧
    (((recordRange 0 [5, 6, 7] 1 2 ([] : List (TrackedChange Nat))).1.filter
        (fun x => x.author == 0)).Pairwise (fun x y => x.from' ≤ y.from')) ∧
    (((mapChanges ([] : List (TrackedChange Nat)) [(0, 1, 1)] (some 0)
        [] []).filter (fun x => x.author == 0)).Pairwise
      (fun x y => x.from' ≤ y.from')) :=
  ⟨by decide,
   (C7_amended_per_author_sorted 0 [5, 6, 7] 1 2 [] 0 1 1 (some 0) []
     (by simp) (fun b => by simp) (by decide)).1 0,
   (C7_amended_per_author_sorted 0 [5, 6, 7] 1 2 [] 0 1 1 (some 0) []
     (by simp) (fun b => by simp) (by decide)).2 0⟩
